import Mathlib

/-!
Shallow embedding of `grit/format/resource_map.py`, the GRIT resource-map
formatter.  Python strings are modelled as Lean `String`s (lists of
characters); Python `dict`s of IDs as association lists; a function that can
raise returns `Except Err`; a generator is modelled by the list of fragments
it yielded together with the exception, if any, that ended it.
-/

set_option autoImplicit false

namespace ResourceMap

/-- An exception raised by the Python code: either an explicit
`raise Exception(msg)` or an out-of-bounds string index (`IndexError`). -/
inductive Err where
  | exception (msg : String)
  | indexError
  deriving Repr, DecidableEq

/-- An output descriptor (`root.GetOutputFiles()` element) with its
`GetType()` and `GetFilename()` values. -/
structure Output where
  type : String
  filename : String
  deriving Repr, DecidableEq

/-- A resource-tree item, as the formatter sees it: `attrs['name']`,
`GetInputPath()`, the `IsResourceMapSource()` predicate and the
`GeneratesResourceMapEntry(output_all_resource_defines, is_active)` method
(external code, kept abstract as a boolean function of its two arguments).
`id` models Python object identity, which is what list membership in
`root.ActiveDescendants()` compares. -/
structure Item where
  id : Nat
  name : String
  getInputPath : String
  isResourceMapSource : Bool
  generatesResourceMapEntry : Bool → Bool → Bool

/-- The grd file root, restricted to what the formatter reads:
`GetOutputFiles()`, iteration over items, the identities of
`ActiveDescendants()`, `ShouldOutputAllResourceDefines()`, and the ID table
computed by the external allocator `rc_header.GetIds(root)`. -/
structure Root where
  outputFiles : List Output
  items : List Item
  activeIds : List Nat
  shouldOutputAllResourceDefines : Bool
  tids : List (String × Nat)

/-- Modelled from the spec: `rc_header.GetIds` (not under `src/`), the
external ID allocator returning the mapping from resource name to assigned
numeric ID; represented as data carried on the root. -/
def GetIds (root : Root) : List (String × Nat) :=
  root.tids

/-- Python `str.find(c)`: index of the first occurrence of `c`, `none`
standing for Python's `-1`. -/
def pyFind (c : Char) : List Char → Option Nat
  | [] => none
  | x :: xs => if x = c then some 0 else (pyFind c xs).map (· + 1)

/-- Python `str.rfind(c)`: index of the last occurrence of `c`, `none`
standing for `-1`. -/
def pyRfind (c : Char) (l : List Char) : Option Nat :=
  match pyFind c l.reverse with
  | none => none
  | some k => some (l.length - 1 - k)

/-- `os.path.split(p)[1]`: the part of the path after the last `/`
(POSIX behaviour). -/
def basenamePart (l : List Char) : List Char :=
  (l.reverse.takeWhile (fun c => c ≠ '/')).reverse

/-- `os.path.splitext(b)[0]` for a path `b` with no directory separator:
strip from the last dot on, unless every character before that dot is
itself a dot (leading-dot files keep their name whole). -/
def splitextRoot (b : List Char) : List Char :=
  match pyRfind '.' b with
  | none => b
  | some d => if (b.take d).any (fun c => c ≠ '.') then b.take d else b

/-- The scan in `GetMapName`: walk the outputs, overwriting
`rc_header_file` with the filename of every descriptor of type
`rc_header`; `none` when the variable was never assigned. -/
def findRcHeaderFile (outputs : List Output) : Option String :=
  outputs.foldl
    (fun acc o => if o.type = "rc_header" then some o.filename else acc) none

/-- The `while True` camel-casing loop of `GetMapName`: find the first
underscore, delete it and uppercase the character that follows; indexing
`filename[pos + 1]` past the end raises `IndexError`.  (`.upper()` on one
character is modelled by `Char.toUpper`, ASCII uppercasing.) -/
def camelLoop (l : List Char) : Except Err (List Char) :=
  match pyFind '_' l with
  | none => .ok l
  | some pos =>
    if pos ≥ l.length then .ok l
    else
      match hd : l.drop (pos + 1) with
      | [] => .error .indexError
      | d :: _ => camelLoop (l.take pos ++ d.toUpper :: l.drop (pos + 2))
termination_by l.length
decreasing_by
  have hlen : (l.drop (pos + 1)).length = l.length - (pos + 1) :=
    List.length_drop _ _
  rw [hd] at hlen
  simp only [List.length_append, List.length_take, List.length_cons,
    List.length_drop] at *
  omega

/-- Lines 38–45 of `GetMapName`: strip directory and extension from the
`rc_header` filename, uppercase the first character (`filename[0]` raises
`IndexError` on an empty base name), run the camel-casing loop, and prefix
`k`. -/
def deriveName (rc_header_file : String) : Except Err String :=
  match splitextRoot (basenamePart rc_header_file.data) with
  | [] => .error .indexError
  | c :: rest => do
    let l ← camelLoop (c.toUpper :: rest)
    return "k" ++ String.mk l

/-- `GetMapName(root)`: find the (last) `rc_header` output's filename,
raise when it is `None` or empty (Python falsiness), then derive the
camel-cased `k`-prefixed name from it. -/
def GetMapName (root : Root) : Except Err String :=
  match findRcHeaderFile root.outputFiles with
  | none => .error (.exception "unable to find resource header filename")
  | some f =>
    if f = "" then .error (.exception "unable to find resource header filename")
    else deriveName f

/-- The text returned by `_FormatHeader` with `map_name` substituted for
the two `%(map_name)s` holes. -/
def headerText (map_name : String) : String :=
  "// This file is automatically generated by GRIT.  Do not edit.\n\n" ++
  "#include <stddef.h>\n\n" ++
  "#ifndef GRIT_RESOURCE_MAP_STRUCT_\n" ++
  "#define GRIT_RESOURCE_MAP_STRUCT_\n" ++
  "struct GritResourceMap \x7b\n" ++
  "  const char* name;\n" ++
  "  int value;\n" ++
  "\x7d;\n" ++
  "#endif // GRIT_RESOURCE_MAP_STRUCT_\n\n" ++
  "extern const GritResourceMap " ++ map_name ++ "[];\n" ++
  "extern const size_t " ++ map_name ++ "Size;\n"

/-- `_FormatHeader(root, lang, output_dir)`: the fragments it produces and
the exception, if any, that ended it (a plain string return is a single
fragment). -/
def _FormatHeader (root : Root) (lang : String) (output_dir : String) :
    List String × Option Err :=
  match GetMapName root with
  | .error e => ([], some e)
  | .ok map_name => ([headerText map_name], none)

/-- Python falsiness of an optional string: `None` or the empty string. -/
def falsyStr : Option String → Bool
  | none => true
  | some s => s = ""

/-- The scan loop of `_FormatSourceHeader`: walk the outputs once, keeping
the last `rc_header` filename and the last `resource_map_header` filename
(`none` when never assigned). -/
def scanSourceHeaderFiles (outputs : List Output) :
    Option String × Option String :=
  outputs.foldl
    (fun acc o =>
      if o.type = "rc_header" then (some o.filename, acc.2)
      else if o.type = "resource_map_header" then (acc.1, some o.filename)
      else acc)
    (none, none)

/-- The text returned by `_FormatSourceHeader` with the three holes
substituted. -/
def sourceHeaderText (map_header_file rc_header_file map_name : String) :
    String :=
  "// This file is automatically generated by GRIT.  Do not edit.\n\n" ++
  "#include \"" ++ map_header_file ++ "\"\n\n" ++
  "#include <stddef.h>\n\n" ++
  "#include \"base/macros.h\"\n\n" ++
  "#include \"" ++ rc_header_file ++ "\"\n\n" ++
  "const GritResourceMap " ++ map_name ++ "[] = \x7b\n"

/-- `_FormatSourceHeader(root)`: raise when either required output is
missing (or has a falsy filename), otherwise build the source-file header
text; `GetMapName` runs while the text is built, so its exceptions
propagate. -/
def _FormatSourceHeader (root : Root) : Except Err String :=
  let files := scanSourceHeaderFiles root.outputFiles
  if falsyStr files.1 || falsyStr files.2 then
    .error (.exception
      "resource_map_source output type requires resource_map_header and rc_header outputs")
  else do
    let map_name ← GetMapName root
    return sourceHeaderText (files.2.getD "") (files.1.getD "") map_name

/-- `_FormatSourceFooter(root)`: the closing brace and size definition;
`GetMapName`'s exceptions propagate. -/
def _FormatSourceFooter (root : Root) : Except Err String := do
  let map_name ← GetMapName root
  return "\x7d;\n\nconst size_t " ++ map_name ++ "Size = arraysize(" ++
    map_name ++ ");\n"

/-- The row fragment `'  {"%s", %s},\n' % (key, tid)`. -/
def rowText (key tid : String) : String :=
  "  \x7b\"" ++ key ++ "\", " ++ tid ++ "\x7d,\n"

/-- The body loop of `_FormatSource`: iterate the items, skip those that
are not resource-map sources, whose `name` is absent from the ID table or
whose key was already seen, and those rejected by
`GeneratesResourceMapEntry`; otherwise mark the key seen and yield the row
fragment.  `seen` is the mutable set accumulated so far. -/
def sourceRows (get_key : Item → String) (tids : List (String × Nat))
    (activeIds : List Nat) (all_defines : Bool) :
    List Item → List String → List String
  | [], _ => []
  | item :: rest, seen =>
    if !item.isResourceMapSource then
      sourceRows get_key tids activeIds all_defines rest seen
    else
      let key := get_key item
      let tid := item.name
      if (tids.lookup tid).isNone || seen.contains key then
        sourceRows get_key tids activeIds all_defines rest seen
      else if item.generatesResourceMapEntry all_defines
          (activeIds.contains item.id) then
        rowText key tid ::
          sourceRows get_key tids activeIds all_defines rest (key :: seen)
      else
        sourceRows get_key tids activeIds all_defines rest seen

/-- `_FormatSource(get_key, root, lang, output_dir)`: the generator's
yielded fragments paired with the exception, if any, that ended it.  It
yields the source header (whose failure aborts before any fragment), then
one row per surviving item, then the footer. -/
def _FormatSource (get_key : Item → String) (root : Root) (lang : String)
    (output_dir : String) : List String × Option Err :=
  match _FormatSourceHeader root with
  | .error e => ([], some e)
  | .ok header =>
    let tids := GetIds root
    let rows := sourceRows get_key tids root.activeIds
      root.shouldOutputAllResourceDefines root.items []
    match _FormatSourceFooter root with
    | .error e => (header :: rows, some e)
    | .ok footer => (header :: (rows ++ [footer]), none)

/-- `_GetItemName(item)`: the item's `name` attribute. -/
def _GetItemName (item : Item) : String :=
  item.name

/-- Python `str.replace(old, new)` over character lists, for a non-empty
pattern `old` (the only use here): scan left to right, replacing each
non-overlapping occurrence. -/
def pyReplace (old new : List Char) : List Char → List Char
  | [] => []
  | c :: rest =>
    if h : old ≠ [] ∧ old.isPrefixOf (c :: rest) then
      new ++ pyReplace old new ((c :: rest).drop old.length)
    else
      c :: pyReplace old new rest
termination_by l => l.length
decreasing_by
  · have hpos : 0 < old.length := List.length_pos.mpr h.1
    simp only [List.length_drop, List.length_cons]
    omega
  · simp only [List.length_cons]
    omega

/-- `_GetItemPath(item)`: the item's input path with backslashes replaced
by forward slashes. -/
def _GetItemPath (item : Item) : String :=
  String.mk (pyReplace ['\\'] ['/'] item.getInputPath.data)

/-- `GetFormatter(type)`: the three recognized output types and the
implicit `None` for everything else. -/
def GetFormatter (type : String) :
    Option (Root → String → String → List String × Option Err) :=
  if type = "resource_map_header" then some _FormatHeader
  else if type = "resource_map_source" then some (_FormatSource _GetItemName)
  else if type = "resource_file_map_source" then
    some (_FormatSource _GetItemPath)
  else none

/-! ### Specification-side definitions

These follow the words of the specification and of the claims, to be
compared with the source-derived definitions above. -/

/-- Spec-side camel casing, following the claim's words: repeatedly delete
each underscore and uppercase the character immediately following it, until
no underscore remains; `none` when an underscore has no following
character. -/
def specCamel : List Char → Option (List Char)
  | [] => some []
  | c :: rest =>
    if c = '_' then
      match rest with
      | [] => none
      | d :: rest' => specCamel (d.toUpper :: rest')
    else (specCamel rest).map (fun t => c :: t)
termination_by l => l.length
decreasing_by
  · simp only [List.length_cons]
    omega
  · simp only [List.length_cons]
    omega

/-- Spec-side map-name derivation, following the claim's words: strip the
filename's directory and extension, uppercase the first character,
camel-case away the underscores, and prefix `k`. -/
def specDerive (f : String) : Option String :=
  match splitextRoot (basenamePart f.data) with
  | [] => none
  | c :: rest =>
    (specCamel (c.toUpper :: rest)).map (fun l => "k" ++ String.mk l)

/-- View an optional camel-casing result as the exception-or-value outcome
of the source's loop: a missing result is the `IndexError`. -/
def optErr : Option (List Char) → Except Err (List Char)
  | none => .error .indexError
  | some r => .ok r

/-- Spec-side eligibility of an item: it is a resource-map source, its
name has an assigned ID, and its own eligibility predicate accepts it. -/
def eligibleB (tids : List (String × Nat)) (activeIds : List Nat)
    (all_defines : Bool) (item : Item) : Bool :=
  item.isResourceMapSource && (tids.lookup item.name).isSome &&
    item.generatesResourceMapEntry all_defines (activeIds.contains item.id)

/-- Spec-side first-occurrence-wins deduplication by key: keep each item
whose key was not seen before, in order. -/
def firstWins (key : Item → String) : List Item → List String → List Item
  | [], _ => []
  | it :: rest, seen =>
    if seen.contains (key it) then firstWins key rest seen
    else it :: firstWins key rest (key it :: seen)

/-! ### Helper lemmas -/

theorem toNat_ofNat_valid (n : Nat) (h : n.isValidChar) :
    (Char.ofNat n).toNat = n := by
  simp [Char.ofNat, h, Char.ofNatAux, Char.toNat, UInt32.toNat,
    BitVec.toNat_ofNatLt]

/-- ASCII uppercasing maps no character other than `_` to `_`. -/
theorem toUpper_eq_underscore {c : Char} (h : c.toUpper = '_') : c = '_' := by
  unfold Char.toUpper at h
  by_cases hr : c.toNat ≥ 97 ∧ c.toNat ≤ 122
  · simp only [hr, and_self, if_true] at h
    have hv : (c.toNat - 32).isValidChar := by
      left
      omega
    have h2 := congrArg Char.toNat h
    rw [toNat_ofNat_valid _ hv] at h2
    have h95 : ('_').toNat = 95 := by decide
    omega
  · simp only [hr, if_false] at h
    exact h

theorem pyFind_eq_none {c : Char} {l : List Char} (h : pyFind c l = none) :
    ∀ x ∈ l, x ≠ c := by
  induction l with
  | nil => intro x hx; cases hx
  | cons a rest ih =>
    intro x hx
    rw [pyFind] at h
    by_cases ha : a = c
    · simp [ha] at h
    · simp only [ha, if_false, Option.map_eq_none'] at h
      rcases List.mem_cons.mp hx with hx | hx
      · rw [hx]; exact ha
      · exact ih h x hx

theorem pyFind_some {c : Char} {l : List Char} {pos : Nat}
    (h : pyFind c l = some pos) :
    ∃ p q, l = p ++ c :: q ∧ p.length = pos ∧ ∀ x ∈ p, x ≠ c := by
  induction l generalizing pos with
  | nil => cases h
  | cons a rest ih =>
    rw [pyFind] at h
    by_cases ha : a = c
    · refine ⟨[], rest, ?_, ?_, ?_⟩
      · simp [ha]
      · simp only [ha, if_true, Option.some.injEq] at h
        simp [← h]
      · intro x hx; cases hx
    · simp only [ha, if_false, Option.map_eq_some'] at h
      obtain ⟨pos', hpos', hsucc⟩ := h
      obtain ⟨p, q, hl, hlen, hclean⟩ := ih hpos'
      refine ⟨a :: p, q, ?_, ?_, ?_⟩
      · simp [hl]
      · simp [hlen, hsucc]
      · intro x hx
        rcases List.mem_cons.mp hx with hx | hx
        · rw [hx]; exact ha
        · exact hclean x hx

theorem pyFind_append_clean {c : Char} {p : List Char} (hp : ∀ x ∈ p, x ≠ c)
    (q : List Char) : pyFind c (p ++ c :: q) = some p.length := by
  induction p with
  | nil => simp [pyFind]
  | cons a p' ih =>
    have ha : a ≠ c := hp a (List.mem_cons_self a p')
    have hp' : ∀ x ∈ p', x ≠ c := fun x hx => hp x (List.mem_cons_of_mem a hx)
    simp only [List.cons_append, pyFind, ha, if_false, List.append_eq, ih hp',
      Option.map_some', List.length_cons]

theorem camelLoop_no_underscore {l : List Char} (h : pyFind '_' l = none) :
    camelLoop l = .ok l := by
  rw [camelLoop, h]

theorem camelLoop_trailing (p : List Char) (hp : ∀ x ∈ p, x ≠ '_') :
    camelLoop (p ++ ['_']) = .error .indexError := by
  rw [camelLoop]
  rw [pyFind_append_clean hp]
  dsimp only
  have hge : ¬ p.length ≥ (p ++ ['_']).length := by
    simp
  rw [if_neg hge]
  have hdrop : (p ++ ['_']).drop (p.length + 1) = [] := by
    simp
  split
  · rfl
  · rename_i d tail heq
    rw [hdrop] at heq
    cases heq

theorem camelLoop_step (p : List Char) (d : Char) (q : List Char)
    (hp : ∀ x ∈ p, x ≠ '_') :
    camelLoop (p ++ '_' :: d :: q) = camelLoop (p ++ d.toUpper :: q) := by
  rw [camelLoop]
  rw [pyFind_append_clean hp]
  dsimp only
  have hge : ¬ p.length ≥ (p ++ '_' :: d :: q).length := by
    simp
  rw [if_neg hge]
  have hdrop : (p ++ '_' :: d :: q).drop (p.length + 1) = d :: q := by
    have h1 : (p ++ '_' :: d :: q).drop p.length = '_' :: d :: q :=
      List.drop_left p _
    have h2 : (p ++ '_' :: d :: q).drop (p.length + 1)
        = ((p ++ '_' :: d :: q).drop p.length).drop 1 := by
      rw [List.drop_drop]
    rw [h2, h1]
    rfl
  have htake : (p ++ '_' :: d :: q).take p.length = p := List.take_left p _
  have hdrop2 : (p ++ '_' :: d :: q).drop (p.length + 2) = q := by
    have h1 : (p ++ '_' :: d :: q).drop p.length = '_' :: d :: q :=
      List.drop_left p _
    have h2 : (p ++ '_' :: d :: q).drop (p.length + 2)
        = ((p ++ '_' :: d :: q).drop p.length).drop 2 := by
      rw [List.drop_drop]
    rw [h2, h1]
    rfl
  split
  · rename_i heq
    rw [hdrop] at heq
    cases heq
  · rename_i d1 tail heq
    rw [hdrop] at heq
    injection heq with h1 h2
    subst h1
    rw [htake, hdrop2]

theorem specCamel_clean_append {p : List Char} (hp : ∀ x ∈ p, x ≠ '_')
    (rest : List Char) :
    specCamel (p ++ rest) = (specCamel rest).map (fun t => p ++ t) := by
  induction p with
  | nil => simp
  | cons a p' ih =>
    have ha : a ≠ '_' := hp a (List.mem_cons_self a p')
    have hp' : ∀ x ∈ p', x ≠ '_' := fun x hx => hp x (List.mem_cons_of_mem a hx)
    rw [List.cons_append, specCamel.eq_def]
    dsimp only
    rw [if_neg ha]
    rw [ih hp', Option.map_map]
    rfl

theorem specCamel_no_underscore {l : List Char} (h : ∀ x ∈ l, x ≠ '_') :
    specCamel l = some l := by
  have h2 := specCamel_clean_append h []
  simp only [List.append_nil] at h2
  rw [h2]
  simp [specCamel]

theorem specCamel_underscore (d : Char) (q : List Char) :
    specCamel ('_' :: d :: q) = specCamel (d.toUpper :: q) := by
  rw [specCamel]
  simp

theorem specCamel_single_underscore : specCamel ['_'] = none := by
  rw [specCamel]
  simp

/-- The source's camel-casing loop agrees with the spec-side camel casing:
it returns its result exactly when the spec procedure is defined, and
raises `IndexError` exactly when an underscore has no following
character. -/
theorem camelLoop_eq_specAux :
    ∀ (n : Nat) (l : List Char), l.length ≤ n →
      camelLoop l = optErr (specCamel l) := by
  intro n
  induction n with
  | zero =>
    intro l hl
    have hnil : l = [] := List.eq_nil_of_length_eq_zero (Nat.le_zero.mp hl)
    subst hnil
    rw [camelLoop_no_underscore (by simp [pyFind])]
    rw [specCamel]
    rfl
  | succ n ih =>
    intro l hl
    cases hf : pyFind '_' l with
    | none =>
      rw [camelLoop_no_underscore hf,
        specCamel_no_underscore (pyFind_eq_none hf)]
      rfl
    | some pos =>
      obtain ⟨p, q, hlpq, hplen, hpclean⟩ := pyFind_some hf
      subst hlpq
      cases q with
      | nil =>
        rw [camelLoop_trailing p hpclean]
        rw [specCamel_clean_append hpclean]
        rw [specCamel_single_underscore]
        rfl
      | cons d q' =>
        have hlen2 : (p ++ d.toUpper :: q').length ≤ n := by
          simp only [List.length_append, List.length_cons] at hl ⊢
          omega
        rw [camelLoop_step p d q' hpclean]
        rw [ih _ hlen2]
        rw [specCamel_clean_append hpclean ('_' :: d :: q')]
        rw [specCamel_underscore]
        rw [← specCamel_clean_append hpclean (d.toUpper :: q')]

theorem camelLoop_eq_spec (l : List Char) :
    camelLoop l = optErr (specCamel l) :=
  camelLoop_eq_specAux l.length l le_rfl

theorem toUpper_underscore : ('_').toUpper = '_' := by decide

theorem specCamel_isSome_aux :
    ∀ (n : Nat) (l : List Char), l.length ≤ n → l.getLast? ≠ some '_' →
      (specCamel l).isSome := by
  intro n
  induction n with
  | zero =>
    intro l hl _
    have hnil : l = [] := List.eq_nil_of_length_eq_zero (Nat.le_zero.mp hl)
    subst hnil
    simp [specCamel]
  | succ n ih =>
    intro l hl hlast
    match l with
    | [] => simp [specCamel]
    | c :: rest =>
      by_cases hc : c = '_'
      · subst hc
        match rest with
        | [] =>
          simp only [List.getLast?_singleton] at hlast
          exact absurd rfl hlast
        | d :: rest' =>
          rw [specCamel_underscore]
          apply ih
          · simp only [List.length_cons] at hl ⊢
            omega
          · match rest' with
            | [] =>
              simp only [List.getLast?_cons_cons, List.getLast?_singleton]
                at hlast ⊢
              intro hcon
              have hd : d = '_' :=
                toUpper_eq_underscore (Option.some.inj hcon)
              exact hlast (by rw [hd])
            | e :: rest'' =>
              simpa only [List.getLast?_cons_cons] using hlast
      · rw [specCamel.eq_def]
        dsimp only
        rw [if_neg hc]
        rw [Option.isSome_map']
        apply ih
        · simp only [List.length_cons] at hl
          omega
        · match rest with
          | [] => simp
          | e :: rest' =>
            simpa only [List.getLast?_cons_cons] using hlast

theorem specCamel_none_aux :
    ∀ (n : Nat) (l : List Char), l.length ≤ n → l.getLast? = some '_' →
      specCamel l = none := by
  intro n
  induction n with
  | zero =>
    intro l hl hlast
    have hnil : l = [] := List.eq_nil_of_length_eq_zero (Nat.le_zero.mp hl)
    subst hnil
    cases hlast
  | succ n ih =>
    intro l hl hlast
    match l with
    | [] => cases hlast
    | c :: rest =>
      match rest with
      | [] =>
        simp only [List.getLast?_singleton] at hlast
        have hc : c = '_' := Option.some.inj hlast
        subst hc
        exact specCamel_single_underscore
      | d :: rest' =>
        by_cases hc : c = '_'
        · subst hc
          rw [specCamel_underscore]
          apply ih
          · simp only [List.length_cons] at hl ⊢
            omega
          · match rest' with
            | [] =>
              simp only [List.getLast?_cons_cons, List.getLast?_singleton]
                at hlast ⊢
              have hd : d = '_' := Option.some.inj hlast
              rw [hd, toUpper_underscore]
            | e :: rest'' =>
              simpa only [List.getLast?_cons_cons] using hlast
        · rw [specCamel.eq_def]
          dsimp only
          rw [if_neg hc]
          have hrest : specCamel (d :: rest') = none := by
            apply ih
            · simp only [List.length_cons] at hl ⊢
              omega
            · simpa only [List.getLast?_cons_cons] using hlast
          rw [hrest]
          rfl

theorem isSome_of_isNone_false {α : Type} {o : Option α}
    (h : o.isNone = false) : o.isSome = true := by
  cases o with
  | none => cases h
  | some v => rfl

theorem sourceRows_eq (gk : Item → String) (tids : List (String × Nat))
    (act : List Nat) (all_defines : Bool) :
    ∀ (items : List Item) (seen : List String),
      sourceRows gk tids act all_defines items seen =
        (firstWins gk (items.filter (eligibleB tids act all_defines)) seen).map
          (fun it => rowText (gk it) it.name) := by
  intro items
  induction items with
  | nil =>
    intro seen
    simp [sourceRows, firstWins]
  | cons item rest ih =>
    intro seen
    rw [sourceRows]
    dsimp only
    cases hrms : item.isResourceMapSource with
    | false =>
      have helig : eligibleB tids act all_defines item = false := by
        unfold eligibleB
        rw [hrms]
        rfl
      rw [if_pos (by decide : (!false) = true)]
      rw [List.filter_cons_of_neg (by rw [helig]; decide)]
      exact ih seen
    | true =>
      rw [if_neg (by decide : ¬(!true) = true)]
      cases hnone : (tids.lookup item.name).isNone with
      | true =>
        have helig : eligibleB tids act all_defines item = false := by
          unfold eligibleB
          have hsome : (tids.lookup item.name).isSome = false := by
            cases h2 : tids.lookup item.name with
            | none => rfl
            | some v => rw [h2] at hnone; cases hnone
          rw [hrms, hsome]
          rfl
        rw [if_pos (by rfl : (true || seen.contains (gk item)) = true)]
        rw [List.filter_cons_of_neg (by rw [helig]; decide)]
        exact ih seen
      | false =>
        cases hseen : seen.contains (gk item) with
        | true =>
          rw [if_pos (by rfl : (false || true) = true)]
          cases helig : eligibleB tids act all_defines item with
          | false =>
            rw [List.filter_cons_of_neg (by rw [helig]; decide)]
            exact ih seen
          | true =>
            rw [List.filter_cons_of_pos helig]
            rw [firstWins]
            rw [if_pos hseen]
            exact ih seen
        | false =>
          rw [if_neg (by decide : ¬(false || false) = true)]
          cases hgen : item.generatesResourceMapEntry all_defines
              (act.contains item.id) with
          | false =>
            have helig : eligibleB tids act all_defines item = false := by
              unfold eligibleB
              rw [hrms, isSome_of_isNone_false hnone, hgen]
              rfl
            rw [if_neg (by decide : ¬false = true)]
            rw [List.filter_cons_of_neg (by rw [helig]; decide)]
            exact ih seen
          | true =>
            have helig : eligibleB tids act all_defines item = true := by
              unfold eligibleB
              rw [hrms, isSome_of_isNone_false hnone, hgen]
              rfl
            rw [if_pos (by rfl : true = true)]
            rw [List.filter_cons_of_pos helig]
            rw [firstWins]
            rw [if_neg (by rw [hseen]; decide :
              ¬seen.contains (gk item) = true)]
            rw [List.map_cons]
            rw [ih (gk item :: seen)]

theorem firstWins_invariant (k : Item → String) :
    ∀ (l : List Item) (seen : List String),
      ((firstWins k l seen).map k).Nodup ∧
      ∀ x ∈ firstWins k l seen, seen.contains (k x) = false := by
  intro l
  induction l with
  | nil =>
    intro seen
    refine ⟨by simp [firstWins], ?_⟩
    intro x hx
    rw [firstWins] at hx
    cases hx
  | cons it rest ih =>
    intro seen
    rw [firstWins]
    cases hs : seen.contains (k it) with
    | true =>
      rw [if_pos (by rfl : (true : Bool) = true)]
      exact ih seen
    | false =>
      rw [if_neg (by decide : ¬(false : Bool) = true)]
      obtain ⟨ihn, ihs⟩ := ih (k it :: seen)
      constructor
      · rw [List.map_cons, List.nodup_cons]
        refine ⟨?_, ihn⟩
        intro hmem
        obtain ⟨x, hx, hkx⟩ := List.mem_map.mp hmem
        have := ihs x hx
        rw [List.contains_cons, hkx] at this
        simp at this
      · intro x hx
        rcases List.mem_cons.mp hx with hx | hx
        · rw [hx]
          exact hs
        · have := ihs x hx
          rw [List.contains_cons] at this
          exact (Bool.or_eq_false_iff.mp this).2

theorem firstWins_sublist (k : Item → String) :
    ∀ (l : List Item) (seen : List String), (firstWins k l seen).Sublist l := by
  intro l
  induction l with
  | nil =>
    intro seen
    rw [firstWins]
  | cons it rest ih =>
    intro seen
    rw [firstWins]
    cases hs : seen.contains (k it) with
    | true =>
      rw [if_pos (by rfl : (true : Bool) = true)]
      exact (ih seen).cons it
    | false =>
      rw [if_neg (by decide : ¬(false : Bool) = true)]
      exact (ih (k it :: seen)).cons₂ it

theorem findRc_foldl_skip {outs : List Output}
    (h : ∀ o ∈ outs, o.type ≠ "rc_header") :
    ∀ acc : Option String,
      outs.foldl
        (fun acc o => if o.type = "rc_header" then some o.filename else acc)
        acc = acc := by
  induction outs with
  | nil => intro acc; rfl
  | cons o rest ih =>
    intro acc
    have ho : o.type ≠ "rc_header" := h o (List.mem_cons_self o rest)
    have h' : ∀ o' ∈ rest, o'.type ≠ "rc_header" :=
      fun o' ho' => h o' (List.mem_cons_of_mem o ho')
    rw [List.foldl_cons, if_neg ho]
    exact ih h' acc

theorem findRcHeaderFile_eq_none {outs : List Output}
    (h : ∀ o ∈ outs, o.type ≠ "rc_header") : findRcHeaderFile outs = none :=
  findRc_foldl_skip h none

theorem findRcHeaderFile_last (pre : List Output) (o : Output)
    (post : List Output) (ho : o.type = "rc_header")
    (hpost : ∀ o' ∈ post, o'.type ≠ "rc_header") :
    findRcHeaderFile (pre ++ o :: post) = some o.filename := by
  unfold findRcHeaderFile
  rw [List.foldl_append, List.foldl_cons, if_pos ho]
  exact findRc_foldl_skip hpost _

theorem findRc_foldl_keep {f : String} :
    ∀ outs : List Output,
      (∀ o ∈ outs, o.type = "rc_header" → o.filename = f) →
      outs.foldl
        (fun acc o => if o.type = "rc_header" then some o.filename else acc)
        (some f) = some f := by
  intro outs
  induction outs with
  | nil => intro _; rfl
  | cons o rest ih =>
    intro h
    have h' : ∀ o' ∈ rest, o'.type = "rc_header" → o'.filename = f :=
      fun o' ho' => h o' (List.mem_cons_of_mem o ho')
    rw [List.foldl_cons]
    by_cases ho : o.type = "rc_header"
    · rw [if_pos ho, h o (List.mem_cons_self o rest) ho]
      exact ih h'
    · rw [if_neg ho]
      exact ih h'

theorem findRcHeaderFile_uniq {outs : List Output} {f : String}
    (hmem : (⟨"rc_header", f⟩ : Output) ∈ outs)
    (huniq : ∀ o ∈ outs, o.type = "rc_header" → o.filename = f) :
    findRcHeaderFile outs = some f := by
  obtain ⟨pre, post, hsplit⟩ := List.append_of_mem hmem
  subst hsplit
  unfold findRcHeaderFile
  rw [List.foldl_append, List.foldl_cons]
  rw [if_pos (by rfl : (⟨"rc_header", f⟩ : Output).type = "rc_header")]
  exact findRc_foldl_keep post
    (fun o' ho' => huniq o' (by simp [List.mem_append, ho']))

theorem scan_foldl_fst {outs : List Output}
    (h : ∀ o ∈ outs, o.type ≠ "rc_header") :
    ∀ acc : Option String × Option String,
      (outs.foldl
        (fun acc o =>
          if o.type = "rc_header" then (some o.filename, acc.2)
          else if o.type = "resource_map_header" then (acc.1, some o.filename)
          else acc)
        acc).1 = acc.1 := by
  induction outs with
  | nil => intro acc; rfl
  | cons o rest ih =>
    intro acc
    have ho : o.type ≠ "rc_header" := h o (List.mem_cons_self o rest)
    have h' : ∀ o' ∈ rest, o'.type ≠ "rc_header" :=
      fun o' ho' => h o' (List.mem_cons_of_mem o ho')
    rw [List.foldl_cons, if_neg ho]
    by_cases hm : o.type = "resource_map_header"
    · rw [if_pos hm]
      exact ih h' _
    · rw [if_neg hm]
      exact ih h' acc

theorem scan_foldl_snd {outs : List Output}
    (h : ∀ o ∈ outs, o.type ≠ "resource_map_header") :
    ∀ acc : Option String × Option String,
      (outs.foldl
        (fun acc o =>
          if o.type = "rc_header" then (some o.filename, acc.2)
          else if o.type = "resource_map_header" then (acc.1, some o.filename)
          else acc)
        acc).2 = acc.2 := by
  induction outs with
  | nil => intro acc; rfl
  | cons o rest ih =>
    intro acc
    have ho : o.type ≠ "resource_map_header" := h o (List.mem_cons_self o rest)
    have h' : ∀ o' ∈ rest, o'.type ≠ "resource_map_header" :=
      fun o' ho' => h o' (List.mem_cons_of_mem o ho')
    rw [List.foldl_cons]
    by_cases hr : o.type = "rc_header"
    · rw [if_pos hr]
      exact ih h' _
    · rw [if_neg hr, if_neg ho]
      exact ih h' acc

theorem formatSourceHeader_missing {root : Root}
    (h : (∀ o ∈ root.outputFiles, o.type ≠ "resource_map_header") ∨
         (∀ o ∈ root.outputFiles, o.type ≠ "rc_header")) :
    _FormatSourceHeader root = .error (.exception
      "resource_map_source output type requires resource_map_header and rc_header outputs") := by
  unfold _FormatSourceHeader
  rcases h with h | h
  · have h2 : (scanSourceHeaderFiles root.outputFiles).2 = none :=
      scan_foldl_snd h (none, none)
    rw [if_pos ?hc]
    case hc =>
      rw [h2]
      cases hfst : (scanSourceHeaderFiles root.outputFiles).1 <;> simp [falsyStr]
  · have h1 : (scanSourceHeaderFiles root.outputFiles).1 = none :=
      scan_foldl_fst h (none, none)
    rw [if_pos ?hc]
    case hc =>
      rw [h1]
      rfl

/-- C5: when no output descriptor has type `rc_header`, `GetMapName` raises
`Exception("unable to find resource header filename")` and returns no
name. -/
theorem C5_no_rc_header_fails (root : Root)
    (h : ∀ o ∈ root.outputFiles, o.type ≠ "rc_header") :
    GetMapName root =
      .error (.exception "unable to find resource header filename") := by
  unfold GetMapName
  rw [findRcHeaderFile_eq_none h]

theorem C5_witness :
    GetMapName ⟨[], [], [], false, []⟩ =
      .error (.exception "unable to find resource header filename") :=
  C5_no_rc_header_fails ⟨[], [], [], false, []⟩ (by simp)

/-- C4: when the output list lacks a `resource_map_header` or an
`rc_header` descriptor, the source formatter fails before yielding any
fragment, with the required-outputs error message. -/
theorem C4_missing_output_fails (gk : Item → String) (root : Root)
    (lang output_dir : String)
    (h : (∀ o ∈ root.outputFiles, o.type ≠ "resource_map_header") ∨
         (∀ o ∈ root.outputFiles, o.type ≠ "rc_header")) :
    _FormatSource gk root lang output_dir =
      ([], some (.exception
        "resource_map_source output type requires resource_map_header and rc_header outputs")) := by
  unfold _FormatSource
  rw [formatSourceHeader_missing h]

theorem C4_witness :
    _FormatSource _GetItemName
        ⟨[⟨"rc_header", "foo.h"⟩], [], [], false, []⟩ "en" "." =
      ([], some (.exception
        "resource_map_source output type requires resource_map_header and rc_header outputs")) :=
  C4_missing_output_fails _GetItemName
    ⟨[⟨"rc_header", "foo.h"⟩], [], [], false, []⟩ "en" "."
    (Or.inl (by simp))

/-- C6: `GetFormatter` maps exactly the three recognized output types to
the header formatter, the source formatter keyed by name, and the source
formatter keyed by path, and yields `none` on every other string. -/
theorem C6_getFormatter_cases :
    GetFormatter "resource_map_header" = some _FormatHeader ∧
    GetFormatter "resource_map_source" = some (_FormatSource _GetItemName) ∧
    GetFormatter "resource_file_map_source" =
      some (_FormatSource _GetItemPath) ∧
    ∀ t : String, t ≠ "resource_map_header" → t ≠ "resource_map_source" →
      t ≠ "resource_file_map_source" → GetFormatter t = none := by
  refine ⟨rfl, rfl, rfl, ?_⟩
  intro t h1 h2 h3
  unfold GetFormatter
  rw [if_neg h1, if_neg h2, if_neg h3]

theorem C6_witness : GetFormatter "android" = none :=
  C6_getFormatter_cases.2.2.2 "android" (by decide) (by decide) (by decide)

/-- C9: when several output descriptors have type `rc_header`, the scan in
`GetMapName` keeps overwriting its variable, so the last one's filename is
the one the map name is derived from. -/
theorem C9_last_rc_header_wins (root : Root) (pre : List Output) (o : Output)
    (post : List Output) (hsplit : root.outputFiles = pre ++ o :: post)
    (ho : o.type = "rc_header")
    (hpost : ∀ o' ∈ post, o'.type ≠ "rc_header") :
    findRcHeaderFile root.outputFiles = some o.filename ∧
    (o.filename ≠ "" → GetMapName root = deriveName o.filename) := by
  have hfind : findRcHeaderFile root.outputFiles = some o.filename := by
    rw [hsplit]
    exact findRcHeaderFile_last pre o post ho hpost
  refine ⟨hfind, ?_⟩
  intro hne
  unfold GetMapName
  rw [hfind]
  dsimp only
  rw [if_neg hne]

theorem C9_witness :
    findRcHeaderFile
        [⟨"rc_header", "a.h"⟩, ⟨"rc_header", "theme_resources.h"⟩] =
      some "theme_resources.h" ∧
    (("theme_resources.h" : String) ≠ "" →
      GetMapName ⟨[⟨"rc_header", "a.h"⟩, ⟨"rc_header", "theme_resources.h"⟩],
        [], [], false, []⟩ = deriveName "theme_resources.h") :=
  C9_last_rc_header_wins
    ⟨[⟨"rc_header", "a.h"⟩, ⟨"rc_header", "theme_resources.h"⟩],
      [], [], false, []⟩
    [⟨"rc_header", "a.h"⟩] ⟨"rc_header", "theme_resources.h"⟩ [] rfl rfl
    (by simp)

/-- C2: `GetMapName` returns `k` + camel-cased base name of the
`rc_header` output's filename, as the spec-side derivation prescribes,
and the three spec examples hold. -/
theorem C2_mapName_matches_spec :
    (∀ (root : Root) (f r : String),
      (⟨"rc_header", f⟩ : Output) ∈ root.outputFiles →
      (∀ o ∈ root.outputFiles, o.type = "rc_header" → o.filename = f) →
      f ≠ "" →
      specDerive f = some r →
      GetMapName root = .ok r) ∧
    GetMapName ⟨[⟨"rc_header", "theme_resources.h"⟩], [], [], false, []⟩ =
      .ok "kThemeResources" ∧
    GetMapName ⟨[⟨"rc_header", "foo_bar_baz.h"⟩], [], [], false, []⟩ =
      .ok "kFooBarBaz" ∧
    GetMapName ⟨[⟨"rc_header", "simple.h"⟩], [], [], false, []⟩ =
      .ok "kSimple" := by
  refine ⟨?_, ?_, ?_, ?_⟩
  · intro root f r hmem huniq hne hspec
    unfold GetMapName
    rw [findRcHeaderFile_uniq hmem huniq]
    dsimp only
    rw [if_neg hne]
    unfold specDerive at hspec
    unfold deriveName
    cases hb : splitextRoot (basenamePart f.data) with
    | nil =>
      rw [hb] at hspec
      cases hspec
    | cons c rest =>
      rw [hb] at hspec
      dsimp only at hspec
      obtain ⟨l, hl, hr⟩ := Option.map_eq_some'.mp hspec
      dsimp only
      rw [camelLoop_eq_spec, hl]
      exact congrArg Except.ok hr
  · simp [GetMapName, findRcHeaderFile, deriveName, splitextRoot,
      basenamePart, pyRfind, pyFind, camelLoop]
  · simp [GetMapName, findRcHeaderFile, deriveName, splitextRoot,
      basenamePart, pyRfind, pyFind, camelLoop]
  · simp [GetMapName, findRcHeaderFile, deriveName, splitextRoot,
      basenamePart, pyRfind, pyFind, camelLoop]

theorem C2_witness :
    specDerive "theme_resources.h" = some "kThemeResources" ∧
    GetMapName ⟨[⟨"rc_header", "theme_resources.h"⟩], [], [], false, []⟩ =
      .ok "kThemeResources" := by
  have hspec : specDerive "theme_resources.h" = some "kThemeResources" := by
    simp [specDerive, splitextRoot, basenamePart, pyRfind, pyFind, specCamel]
  exact ⟨hspec, C2_mapName_matches_spec.1
    ⟨[⟨"rc_header", "theme_resources.h"⟩], [], [], false, []⟩
    "theme_resources.h" "kThemeResources"
    (by simp) (by simp) (by simp) hspec⟩

/-- C10: the camel-casing loop in `GetMapName` indexes within bounds and
succeeds whenever the stripped base name is non-empty and does not end in
an underscore; when the base name ends in an underscore, the index after
the final underscore is out of bounds and `GetMapName` raises
`IndexError`. -/
theorem C10_camel_bounds (root : Root) (f : String)
    (hfind : findRcHeaderFile root.outputFiles = some f) (hne : f ≠ "") :
    (splitextRoot (basenamePart f.data) ≠ [] →
      (splitextRoot (basenamePart f.data)).getLast? ≠ some '_' →
      ∃ s, GetMapName root = .ok s) ∧
    ((splitextRoot (basenamePart f.data)).getLast? = some '_' →
      GetMapName root = .error .indexError) := by
  have hgm : GetMapName root = deriveName f := by
    unfold GetMapName
    rw [hfind]
    dsimp only
    rw [if_neg hne]
  constructor
  · intro hnil hlast
    rw [hgm]
    unfold deriveName
    cases hb : splitextRoot (basenamePart f.data) with
    | nil => exact absurd hb hnil
    | cons c rest =>
      rw [hb] at hlast
      have hlast2 : (c.toUpper :: rest).getLast? ≠ some '_' := by
        cases rest with
        | nil =>
          simp only [List.getLast?_singleton] at hlast ⊢
          intro hcon
          have := toUpper_eq_underscore (Option.some.inj hcon)
          exact hlast (by rw [this])
        | cons d rest' =>
          simpa only [List.getLast?_cons_cons] using hlast
      have hsome := specCamel_isSome_aux (c.toUpper :: rest).length _
        le_rfl hlast2
      obtain ⟨l, hl⟩ := Option.isSome_iff_exists.mp hsome
      refine ⟨"k" ++ String.mk l, ?_⟩
      dsimp only
      rw [camelLoop_eq_spec, hl]
      rfl
  · intro hlast
    rw [hgm]
    unfold deriveName
    cases hb : splitextRoot (basenamePart f.data) with
    | nil =>
      rw [hb] at hlast
    | cons c rest =>
      rw [hb] at hlast
      have hlast2 : (c.toUpper :: rest).getLast? = some '_' := by
        cases rest with
        | nil =>
          simp only [List.getLast?_singleton] at hlast ⊢
          rw [Option.some.inj hlast, toUpper_underscore]
        | cons d rest' =>
          simpa only [List.getLast?_cons_cons] using hlast
      have hnone := specCamel_none_aux (c.toUpper :: rest).length _
        le_rfl hlast2
      dsimp only
      rw [camelLoop_eq_spec, hnone]
      rfl

theorem C10_witness :
    (∃ s, GetMapName ⟨[⟨"rc_header", "good.h"⟩], [], [], false, []⟩ =
      .ok s) ∧
    GetMapName ⟨[⟨"rc_header", "bad_.h"⟩], [], [], false, []⟩ =
      .error .indexError :=
  ⟨(C10_camel_bounds ⟨[⟨"rc_header", "good.h"⟩], [], [], false, []⟩
      "good.h" (by simp [findRcHeaderFile]) (by simp)).1
      (by simp [splitextRoot, basenamePart, pyRfind, pyFind])
      (by simp [splitextRoot, basenamePart, pyRfind, pyFind]),
   (C10_camel_bounds ⟨[⟨"rc_header", "bad_.h"⟩], [], [], false, []⟩
      "bad_.h" (by simp [findRcHeaderFile]) (by simp)).2
      (by simp [splitextRoot, basenamePart, pyRfind, pyFind])⟩

/-- C3: the body rows are exactly one row per first eligible occurrence of
each key, in the tree's iteration order: the emitted keys are pairwise
distinct, the surviving items form a subsequence of the item list, and
later duplicates are dropped silently. -/
theorem C3_rows_unique_ordered (gk : Item → String)
    (tids : List (String × Nat)) (act : List Nat) (all_defines : Bool)
    (items : List Item) :
    sourceRows gk tids act all_defines items [] =
      (firstWins gk (items.filter (eligibleB tids act all_defines)) []).map
        (fun it => rowText (gk it) it.name) ∧
    ((firstWins gk (items.filter (eligibleB tids act all_defines)) []).map
      gk).Nodup ∧
    (firstWins gk (items.filter (eligibleB tids act all_defines))
      []).Sublist items :=
  ⟨sourceRows_eq gk tids act all_defines items [],
   (firstWins_invariant gk (items.filter (eligibleB tids act all_defines))
     []).1,
   (firstWins_sublist gk (items.filter (eligibleB tids act all_defines))
     []).trans (List.filter_sublist items)⟩

/-- C1 (counterexample): with key `IDS_GREETING` and assigned ID `101`,
the emitted row is `  {"IDS_GREETING", IDS_GREETING},\n` — the second
field is the name token again — and not `  {"IDS_GREETING", 101},\n` as
the claim states. -/
theorem C1_counterexample :
    sourceRows _GetItemName [("IDS_GREETING", 101)] [] false
        [⟨0, "IDS_GREETING", "", true, fun _ _ => true⟩] [] =
      ["  \x7b\"IDS_GREETING\", IDS_GREETING\x7d,\n"] ∧
    ("  \x7b\"IDS_GREETING\", IDS_GREETING\x7d,\n" : String) ≠
      "  \x7b\"IDS_GREETING\", 101\x7d,\n" := by
  constructor
  · rfl
  · decide

/-- C1 (amended): every emitted row is
`  {"<key>", <name>},\n` where the second field is the item's raw `name`
attribute token itself (the ID table is consulted only for membership);
the generated C++ relies on the included `rc_header` to give that token
its numeric value. -/
theorem C1_row_second_field_is_name (gk : Item → String)
    (tids : List (String × Nat)) (act : List Nat) (all_defines : Bool)
    (items : List Item) (r : String)
    (hr : r ∈ sourceRows gk tids act all_defines items []) :
    ∃ it ∈ items, (tids.lookup it.name).isSome = true ∧
      r = "  \x7b\"" ++ gk it ++ "\", " ++ it.name ++ "\x7d,\n" := by
  rw [sourceRows_eq] at hr
  obtain ⟨it, hit, hrow⟩ := List.mem_map.mp hr
  have hsub : it ∈ items.filter (eligibleB tids act all_defines) :=
    (firstWins_sublist gk _ []).subset hit
  have hmem : it ∈ items := (List.filter_sublist items).subset hsub
  have helig : eligibleB tids act all_defines it = true :=
    (List.mem_filter.mp hsub).2
  have hsome : (tids.lookup it.name).isSome = true := by
    unfold eligibleB at helig
    simp only [Bool.and_eq_true] at helig
    exact helig.1.2
  exact ⟨it, hmem, hsome, by rw [← hrow]; rfl⟩

theorem C1_witness :
    ∃ it ∈ [(⟨0, "IDS_GREETING", "", true, fun _ _ => true⟩ : Item)],
      (([("IDS_GREETING", 101)] : List (String × Nat)).lookup
        it.name).isSome = true ∧
      ("  \x7b\"IDS_GREETING\", IDS_GREETING\x7d,\n" : String) =
        "  \x7b\"" ++ _GetItemName it ++ "\", " ++ it.name ++ "\x7d,\n" :=
  C1_row_second_field_is_name _GetItemName [("IDS_GREETING", 101)] [] false
    [⟨0, "IDS_GREETING", "", true, fun _ _ => true⟩]
    "  \x7b\"IDS_GREETING\", IDS_GREETING\x7d,\n"
    (by rw [show sourceRows _GetItemName [("IDS_GREETING", 101)] [] false
        [⟨0, "IDS_GREETING", "", true, fun _ _ => true⟩] [] =
        ["  \x7b\"IDS_GREETING\", IDS_GREETING\x7d,\n"] from rfl]
        ; exact List.mem_singleton.mpr rfl)

theorem sourceRows_skip_head (gk : Item → String) (tids : List (String × Nat))
    (act : List Nat) (all_defines : Bool) (item : Item) (rest : List Item)
    (seen : List String) (h : tids.lookup item.name = none) :
    sourceRows gk tids act all_defines (item :: rest) seen =
      sourceRows gk tids act all_defines rest seen := by
  rw [sourceRows]
  dsimp only
  cases hrms : item.isResourceMapSource with
  | false =>
    rw [if_pos (by decide : (!false) = true)]
  | true =>
    rw [if_neg (by decide : ¬(!true) = true)]
    rw [h]
    rw [if_pos (by rfl :
      ((none : Option Nat).isNone || seen.contains (gk item)) = true)]

theorem sourceRows_skip_middle (gk : Item → String)
    (tids : List (String × Nat)) (act : List Nat) (all_defines : Bool)
    (item : Item) (post : List Item) (h : tids.lookup item.name = none) :
    ∀ (pre : List Item) (seen : List String),
      sourceRows gk tids act all_defines (pre ++ item :: post) seen =
        sourceRows gk tids act all_defines (pre ++ post) seen := by
  intro pre
  induction pre with
  | nil =>
    intro seen
    exact sourceRows_skip_head gk tids act all_defines item post seen h
  | cons a pre' ih =>
    intro seen
    rw [List.cons_append, List.cons_append, sourceRows, sourceRows]
    dsimp only
    cases hrms : a.isResourceMapSource with
    | false =>
      exact ih seen
    | true =>
      cases hc : ((tids.lookup a.name).isNone || seen.contains (gk a)) with
      | true =>
        exact ih seen
      | false =>
        cases hgen : a.generatesResourceMapEntry all_defines
            (act.contains a.id) with
        | false =>
          exact ih seen
        | true =>
          exact congrArg (fun rows => rowText (gk a) a.name :: rows)
            (ih (gk a :: seen))

/-- C7: an item whose name is absent from the ID table contributes
nothing: its row is skipped, no exception is raised, and the formatter's
entire output is unchanged by removing the item. -/
theorem C7_missing_id_is_silent :
    (∀ (gk : Item → String) (tids : List (String × Nat)) (act : List Nat)
       (all_defines : Bool) (item : Item) (rest : List Item)
       (seen : List String),
       tids.lookup item.name = none →
       sourceRows gk tids act all_defines (item :: rest) seen =
         sourceRows gk tids act all_defines rest seen) ∧
    (∀ (gk : Item → String) (root : Root) (lang output_dir : String)
       (pre post : List Item) (item : Item),
       root.items = pre ++ item :: post →
       root.tids.lookup item.name = none →
       _FormatSource gk root lang output_dir =
         _FormatSource gk
           ⟨root.outputFiles, pre ++ post, root.activeIds,
            root.shouldOutputAllResourceDefines, root.tids⟩ lang output_dir) := by
  constructor
  · intro gk tids act all_defines item rest seen h
    exact sourceRows_skip_head gk tids act all_defines item rest seen h
  · intro gk root lang output_dir pre post item hitems hlook
    unfold _FormatSource
    dsimp only
    rw [hitems]
    rw [sourceRows_skip_middle gk (GetIds root) root.activeIds
      root.shouldOutputAllResourceDefines item post hlook pre []]
    rfl

theorem C7_witness :
    sourceRows _GetItemName [] [] false
        [⟨0, "IDS_X", "", true, fun _ _ => true⟩] [] =
      sourceRows _GetItemName [] [] false [] [] :=
  C7_missing_id_is_silent.1 _GetItemName [] [] false
    ⟨0, "IDS_X", "", true, fun _ _ => true⟩ [] [] rfl

theorem pyReplace_singleton (a b : Char) :
    ∀ l : List Char,
      pyReplace [a] [b] l = l.map (fun c => if c = a then b else c) := by
  intro l
  induction l with
  | nil =>
    rw [pyReplace]
    rfl
  | cons c rest ih =>
    rw [pyReplace]
    by_cases hc : c = a
    · rw [dif_pos ⟨by simp, by simp [List.isPrefixOf, hc]⟩]
      rw [List.map_cons, if_pos hc]
      rw [show ((c :: rest).drop ([a] : List Char).length) = rest from rfl]
      rw [ih]
      rfl
    · rw [dif_neg]
      · rw [List.map_cons, if_neg hc, ih]
      · intro hcon
        have h2 := hcon.2
        simp [List.isPrefixOf] at h2
        exact hc h2.symm

/-- C8: the by-path key extractor returns the item's input path with every
backslash replaced by a forward slash, and never fails; in particular
`a\b\c.png` becomes `a/b/c.png`. -/
theorem C8_bypath_normalizes :
    (∀ item : Item,
      (_GetItemPath item).data =
        item.getInputPath.data.map (fun c => if c = '\\' then '/' else c)) ∧
    _GetItemPath ⟨0, "img", "a\\b\\c.png", true, fun _ _ => true⟩ =
      "a/b/c.png" := by
  constructor
  · intro item
    unfold _GetItemPath
    rw [pyReplace_singleton]
  · unfold _GetItemPath
    rw [pyReplace_singleton]
    decide

end ResourceMap
